import Mathlib

/-!
Verification of the boolean search engine `search_engine.py`
(inverted index + AND/OR/NOT query parser and evaluator).

Document ids are modelled as `Nat` (the data model declares ids unsigned;
the NOT-universe is `{0, …, n_docs-1}`).  Posting lists are `List Nat`.
Query tokens and terms are modelled as `List Char`, so that the lexer's
character-level processing can be embedded faithfully.
-/

namespace SearchEngine

/-- Embeds `intersect(a, b)` of `search_engine.py`: two-pointer intersection of
sorted ascending lists. -/
def intersect : List Nat → List Nat → List Nat
  | [], _ => []
  | _ :: _, [] => []
  | a :: as, b :: bs =>
    if a = b then a :: intersect as bs
    else if a < b then intersect as (b :: bs)
    else intersect (a :: as) bs

/-- Embeds `union(a, b)` of `search_engine.py`: two-pointer merge of sorted
ascending lists; when one side runs out the remainder of the other is
appended unchanged. -/
def union : List Nat → List Nat → List Nat
  | [], b => b
  | a :: as, [] => a :: as
  | a :: as, b :: bs =>
    if a = b then a :: union as bs
    else if a < b then a :: union as (b :: bs)
    else b :: union (a :: as) bs

/-- Embeds `difference(a, b)` of `search_engine.py`: one-pass `A \ B`; when `b`
runs out the remainder of `a` is appended unchanged. -/
def difference : List Nat → List Nat → List Nat
  | [], _ => []
  | a :: as, [] => a :: as
  | a :: as, b :: bs =>
    if a = b then difference as bs
    else if a < b then a :: difference as (b :: bs)
    else difference (a :: as) bs

/-- The loop body of `complement(p, n_docs)`: walk the candidate ids `ds`
(first argument) while consuming the pointer into `p` (second argument);
emit `d` unless it equals the current unconsumed element of `p`. -/
def complGo : List Nat → List Nat → List Nat
  | [], _ => []
  | d :: ds, [] => d :: complGo ds []
  | d :: ds, x :: p => if x = d then complGo ds p else d :: complGo ds (x :: p)

/-- Embeds `complement(p, n_docs)` of `search_engine.py`: `U \ p` with
`U = [0 .. n_docs-1]`, walking `d` from `0` to `n_docs - 1`. -/
def complement (p : List Nat) (nDocs : Nat) : List Nat :=
  complGo (List.range nDocs) p

/-! ### Basic structural lemmas about the set operations -/

theorem intersect_sublist_left : ∀ a b : List Nat, List.Sublist (intersect a b) a
  | [], _ => by simp [intersect]
  | _ :: _, [] => by simp [intersect]
  | a :: as, b :: bs => by
    simp only [intersect]
    split
    · exact (intersect_sublist_left as bs).cons₂ a
    · split
      · exact (intersect_sublist_left as (b :: bs)).cons a
      · exact intersect_sublist_left (a :: as) bs

theorem intersect_sublist_right : ∀ a b : List Nat, List.Sublist (intersect a b) b
  | [], _ => by simp [intersect]
  | _ :: _, [] => by simp [intersect]
  | a :: as, b :: bs => by
    simp only [intersect]
    split
    · rename_i h
      subst h
      exact (intersect_sublist_right as bs).cons₂ a
    · split
      · exact intersect_sublist_right as (b :: bs)
      · exact (intersect_sublist_right (a :: as) bs).cons b

theorem difference_sublist : ∀ a b : List Nat, List.Sublist (difference a b) a
  | [], _ => by simp [difference]
  | _ :: _, [] => by simp [difference]
  | a :: as, b :: bs => by
    simp only [difference]
    split
    · exact (difference_sublist as bs).cons a
    · split
      · exact (difference_sublist as (b :: bs)).cons₂ a
      · exact difference_sublist (a :: as) bs

theorem complGo_sublist : ∀ ds p : List Nat, List.Sublist (complGo ds p) ds
  | [], _ => by simp [complGo]
  | d :: ds, [] => by
    simpa [complGo] using (complGo_sublist ds []).cons₂ d
  | d :: ds, x :: p => by
    simp only [complGo]
    split
    · exact (complGo_sublist ds p).cons d
    · exact (complGo_sublist ds (x :: p)).cons₂ d

/-- Under sortedness, the two-pointer intersection is exactly the filter
of `a` by membership in `b`. -/
theorem intersect_eq_filter :
    ∀ a b : List Nat, a.Sorted (· < ·) → b.Sorted (· < ·) →
      intersect a b = a.filter (fun x => decide (x ∈ b))
  | [], _, _, _ => by simp [intersect]
  | _ :: _, [], _, _ => by simp [intersect]
  | a :: as, b :: bs, ha, hb => by
    have ha1 := (List.sorted_cons.mp ha).1
    have ha' := (List.sorted_cons.mp ha).2
    have hb1 := (List.sorted_cons.mp hb).1
    have hb' := (List.sorted_cons.mp hb).2
    simp only [intersect]
    split
    · rename_i hab
      subst hab
      rw [intersect_eq_filter as bs ha' hb', List.filter_cons,
        if_pos (by simp)]
      congr 1
      apply List.filter_congr
      intro x hx
      have hax : a < x := ha1 x hx
      exact decide_eq_decide.mpr (by simp [List.mem_cons]; omega)
    · split
      · rename_i hne hlt
        rw [intersect_eq_filter as (b :: bs) ha' hb, List.filter_cons,
          if_neg]
        simp only [decide_eq_true_eq, List.mem_cons]
        rintro (h | h)
        · exact hne h
        · have := hb1 a h; omega
      · rename_i hne hnlt
        rw [intersect_eq_filter (a :: as) bs ha hb']
        apply List.filter_congr
        intro x hx
        have hbx : b < x := by
          rcases List.mem_cons.mp hx with h | h
          · omega
          · have := ha1 x h; omega
        exact decide_eq_decide.mpr (by simp [List.mem_cons]; omega)

/-- Under sortedness, the one-pass difference is exactly the filter of
`a` by non-membership in `b`. -/
theorem difference_eq_filter :
    ∀ a b : List Nat, a.Sorted (· < ·) → b.Sorted (· < ·) →
      difference a b = a.filter (fun x => decide (x ∉ b))
  | [], _, _, _ => by simp [difference]
  | _ :: _, [], _, _ => by simp [difference]
  | a :: as, b :: bs, ha, hb => by
    have ha1 := (List.sorted_cons.mp ha).1
    have ha' := (List.sorted_cons.mp ha).2
    have hb1 := (List.sorted_cons.mp hb).1
    have hb' := (List.sorted_cons.mp hb).2
    simp only [difference]
    split
    · rename_i hab
      subst hab
      rw [difference_eq_filter as bs ha' hb', List.filter_cons,
        if_neg (by simp)]
      apply List.filter_congr
      intro x hx
      have hax : a < x := ha1 x hx
      exact decide_eq_decide.mpr (by simp [List.mem_cons]; omega)
    · split
      · rename_i hne hlt
        rw [difference_eq_filter as (b :: bs) ha' hb, List.filter_cons,
          if_pos]
        simp only [decide_eq_true_eq, List.mem_cons]
        rintro (h | h)
        · exact hne h
        · have := hb1 a h; omega
      · rename_i hne hnlt
        rw [difference_eq_filter (a :: as) bs ha hb']
        apply List.filter_congr
        intro x hx
        have hbx : b < x := by
          rcases List.mem_cons.mp hx with h | h
          · omega
          · have := ha1 x h; omega
        exact decide_eq_decide.mpr (by simp [List.mem_cons]; omega)

/-- Membership in `union`: an element is in the merge iff it is in either
argument (no sortedness needed). -/
theorem mem_union :
    ∀ (a b : List Nat) (x : Nat), x ∈ union a b ↔ x ∈ a ∨ x ∈ b
  | [], b, x => by simp [union]
  | a :: as, [], x => by simp [union]
  | a :: as, b :: bs, x => by
    simp only [union]
    split
    · rename_i hab
      subst hab
      simp only [List.mem_cons, mem_union as bs x]
      tauto
    · split
      · simp only [List.mem_cons, mem_union as (b :: bs) x, List.mem_cons]
        tauto
      · simp only [List.mem_cons, mem_union (a :: as) bs x, List.mem_cons]
        tauto

/-- Sortedness of `union` of sorted lists. -/
theorem union_sorted :
    ∀ a b : List Nat, a.Sorted (· < ·) → b.Sorted (· < ·) →
      (union a b).Sorted (· < ·)
  | [], b, _, hb => by simpa [union] using hb
  | a :: as, [], ha, _ => by simpa [union] using ha
  | a :: as, b :: bs, ha, hb => by
    have ha1 := (List.sorted_cons.mp ha).1
    have ha' := (List.sorted_cons.mp ha).2
    have hb1 := (List.sorted_cons.mp hb).1
    have hb' := (List.sorted_cons.mp hb).2
    simp only [union]
    split
    · rename_i hab
      subst hab
      refine List.sorted_cons.mpr ⟨?_, union_sorted as bs ha' hb'⟩
      intro y hy
      rcases (mem_union as bs y).mp hy with h | h
      · exact ha1 y h
      · exact hb1 y h
    · split
      · rename_i hne hlt
        refine List.sorted_cons.mpr ⟨?_, union_sorted as (b :: bs) ha' hb⟩
        intro y hy
        rcases (mem_union as (b :: bs) y).mp hy with h | h
        · exact ha1 y h
        · rcases List.mem_cons.mp h with h' | h'
          · omega
          · have := hb1 y h'; omega
      · rename_i hne hnlt
        have hba : b < a := by omega
        refine List.sorted_cons.mpr ⟨?_, union_sorted (a :: as) bs ha hb'⟩
        intro y hy
        rcases (mem_union (a :: as) bs y).mp hy with h | h
        · rcases List.mem_cons.mp h with h' | h'
          · omega
          · have := ha1 y h'; omega
        · exact hb1 y h

/-- The complement walk over a sorted candidate list is exactly the filter
by non-membership in the (sorted) pointer list, provided every pointer
element actually occurs among the candidates. -/
theorem complGo_eq_filter :
    ∀ ds p : List Nat, ds.Sorted (· < ·) → p.Sorted (· < ·) →
      (∀ x ∈ p, x ∈ ds) →
      complGo ds p = ds.filter (fun d => decide (d ∉ p))
  | [], p, _, _, hsub => by
    cases p with
    | nil => simp [complGo]
    | cons x p => exact absurd (hsub x (List.mem_cons_self x p)) (by simp)
  | d :: ds, [], hds, _, _ => by
    have hds' := (List.sorted_cons.mp hds).2
    simp only [complGo, List.filter_cons]
    rw [if_pos (by simp)]
    rw [complGo_eq_filter ds [] hds' (by simp) (by simp)]
  | d :: ds, x :: p, hds, hp, hsub => by
    have hd1 := (List.sorted_cons.mp hds).1
    have hds' := (List.sorted_cons.mp hds).2
    have hp1 := (List.sorted_cons.mp hp).1
    have hp' := (List.sorted_cons.mp hp).2
    simp only [complGo]
    split
    · rename_i hxd
      subst hxd
      rw [List.filter_cons, if_neg (by simp)]
      rw [complGo_eq_filter ds p hds' hp' ?sub]
      case sub =>
        intro y hy
        have hxy : x < y := hp1 y hy
        rcases List.mem_cons.mp (hsub y (List.mem_cons_of_mem x hy)) with h | h
        · omega
        · exact h
      apply List.filter_congr
      intro y hy
      have hdy : x < y := hd1 y hy
      exact decide_eq_decide.mpr (by simp [List.mem_cons]; omega)
    · rename_i hxd
      have hxds : x ∈ ds := by
        rcases List.mem_cons.mp (hsub x (List.mem_cons_self x p)) with h | h
        · exact absurd h hxd
        · exact h
      have hdx : d < x := hd1 x hxds
      rw [List.filter_cons, if_pos]
      · rw [complGo_eq_filter ds (x :: p) hds' hp ?sub]
        case sub =>
          intro y hy
          rcases List.mem_cons.mp hy with h | h
          · subst h; exact hxds
          · have hxy : x < y := hp1 y h
            rcases List.mem_cons.mp (hsub y (List.mem_cons_of_mem x h)) with h' | h'
            · omega
            · exact h'
      · simp only [decide_eq_true_eq, List.mem_cons]
        rintro (h | h)
        · omega
        · have := hp1 d h; omega

/-- The `complement` against a universe covering the sorted list `p` is the
filter of `[0 .. n-1]` by non-membership in `p`. -/
theorem complement_eq_filter (p : List Nat) (n : Nat)
    (hp : p.Sorted (· < ·)) (hn : ∀ x ∈ p, x < n) :
    complement p n = (List.range n).filter (fun d => decide (d ∉ p)) :=
  complGo_eq_filter (List.range n) p (List.sorted_lt_range n) hp
    (fun x hx => List.mem_range.mpr (hn x hx))

/-- The complement is always a sublist of `range n`, hence sorted with all
elements below `n`, with no assumptions on `p` at all. -/
theorem complement_sublist_range (p : List Nat) (n : Nat) :
    List.Sublist (complement p n) (List.range n) :=
  complGo_sublist (List.range n) p

theorem complement_sorted (p : List Nat) (n : Nat) :
    (complement p n).Sorted (· < ·) :=
  (List.sorted_lt_range n).sublist (complement_sublist_range p n)

theorem complement_lt (p : List Nat) (n : Nat) :
    ∀ x ∈ complement p n, x < n := fun x hx =>
  List.mem_range.mp ((complement_sublist_range p n).mem hx)

theorem mem_complement (p : List Nat) (n : Nat)
    (hp : p.Sorted (· < ·)) (hn : ∀ x ∈ p, x < n) :
    ∀ x, x ∈ complement p n ↔ x < n ∧ x ∉ p := by
  intro x
  rw [complement_eq_filter p n hp hn]
  simp [List.mem_filter, List.mem_range]

/-- Filtering a sorted list by membership in a sorted sublist of its
elements recovers that sublist. -/
theorem filter_mem_sorted_eq :
    ∀ l p : List Nat, l.Sorted (· < ·) → p.Sorted (· < ·) →
      (∀ x ∈ p, x ∈ l) →
      l.filter (fun d => decide (d ∈ p)) = p
  | [], p, _, _, hsub => by
    cases p with
    | nil => simp
    | cons x p => exact absurd (hsub x (List.mem_cons_self x p)) (by simp)
  | a :: l, p, hl, hp, hsub => by
    have hl1 := (List.sorted_cons.mp hl).1
    have hl' := (List.sorted_cons.mp hl).2
    by_cases hap : a ∈ p
    · obtain ⟨x, p', rfl⟩ : ∃ x p', p = x :: p' := by
        cases p with
        | nil => simp at hap
        | cons x p' => exact ⟨x, p', rfl⟩
      have hp1 := (List.sorted_cons.mp hp).1
      have hp' := (List.sorted_cons.mp hp).2
      have hxa : x = a := by
        rcases List.mem_cons.mp hap with h | h
        · omega
        · have hxlt : x < a := hp1 a h
          rcases List.mem_cons.mp (hsub x (List.mem_cons_self x p')) with h' | h'
          · omega
          · have := hl1 x h'; omega
      subst hxa
      rw [List.filter_cons, if_pos (by simp)]
      have hcong : List.filter (fun d => decide (d ∈ x :: p')) l
          = List.filter (fun d => decide (d ∈ p')) l := by
        apply List.filter_congr
        intro y hy
        have hay : x < y := hl1 y hy
        exact decide_eq_decide.mpr (by simp [List.mem_cons]; omega)
      rw [hcong]
      congr 1
      apply filter_mem_sorted_eq l p' hl' hp'
      intro y hy
      have hay : x < y := hp1 y hy
      rcases List.mem_cons.mp (hsub y (List.mem_cons_of_mem x hy)) with h | h
      · omega
      · exact h
    · rw [List.filter_cons, if_neg (by simpa using hap)]
      apply filter_mem_sorted_eq l p hl' hp
      intro y hy
      rcases List.mem_cons.mp (hsub y hy) with h | h
      · exact absurd (h ▸ hy) hap
      · exact h

/-- Claim C3: For strictly ascending lists `A` and `B`, `intersect(A, B)` is
strictly ascending, contains exactly the ids present in both `A` and `B`,
and its length is at most `min(len(A), len(B))`. -/
theorem c3_intersect_correct (a b : List Nat) (x : Nat)
    (ha : a.Sorted (· < ·)) (hb : b.Sorted (· < ·)) :
    (intersect a b).Sorted (· < ·) ∧
      (x ∈ intersect a b ↔ x ∈ a ∧ x ∈ b) ∧
      (intersect a b).length ≤ min a.length b.length := by
  refine ⟨ha.sublist (intersect_sublist_left a b), ?_, ?_⟩
  · rw [intersect_eq_filter a b ha hb]
    simp [List.mem_filter]
  · exact le_min (intersect_sublist_left a b).length_le
      (intersect_sublist_right a b).length_le

theorem c3_witness :
    ([1, 3, 5] : List Nat).Sorted (· < ·) ∧
      ([3, 5, 7] : List Nat).Sorted (· < ·) ∧
      ((intersect [1, 3, 5] [3, 5, 7]).Sorted (· < ·) ∧
        (3 ∈ intersect [1, 3, 5] [3, 5, 7] ↔
          3 ∈ ([1, 3, 5] : List Nat) ∧ 3 ∈ ([3, 5, 7] : List Nat)) ∧
        (intersect [1, 3, 5] [3, 5, 7]).length ≤
          min ([1, 3, 5] : List Nat).length ([3, 5, 7] : List Nat).length) :=
  ⟨by decide, by decide,
    c3_intersect_correct [1, 3, 5] [3, 5, 7] 3 (by decide) (by decide)⟩

/-- Claim C4: For a strictly ascending list `P` whose elements all lie below
`n_docs`, `complement` is an involution against the universe
`[0 .. n_docs-1]`. -/
theorem c4_complement_involution (p : List Nat) (n : Nat)
    (hp : p.Sorted (· < ·)) (hn : ∀ x ∈ p, x < n) :
    complement (complement p n) n = p := by
  have hc_sorted := complement_sorted p n
  have hc_lt := complement_lt p n
  rw [complement_eq_filter (complement p n) n hc_sorted hc_lt]
  have hcong : (List.range n).filter (fun d => decide (d ∉ complement p n))
      = (List.range n).filter (fun d => decide (d ∈ p)) := by
    apply List.filter_congr
    intro d hd
    have hdn : d < n := List.mem_range.mp hd
    have hmc := mem_complement p n hp hn d
    exact decide_eq_decide.mpr (by rw [hmc]; tauto)
  rw [hcong]
  exact filter_mem_sorted_eq (List.range n) p (List.sorted_lt_range n) hp
    (fun x hx => List.mem_range.mpr (hn x hx))

theorem c4_witness :
    ([1, 3, 5] : List Nat).Sorted (· < ·) ∧ (∀ x ∈ ([1, 3, 5] : List Nat), x < 8) ∧
      complement (complement [1, 3, 5] 8) 8 = [1, 3, 5] :=
  ⟨by decide, by decide, c4_complement_involution [1, 3, 5] 8 (by decide) (by decide)⟩

/-- Claim C10: The one-pass set difference coincides with the composed
computation `intersect(a, complement(b, n_docs))` whenever both lists are
strictly ascending and `n_docs` bounds every element of both. -/
theorem c10_difference_equiv (a b : List Nat) (n : Nat)
    (ha : a.Sorted (· < ·)) (hb : b.Sorted (· < ·))
    (han : ∀ x ∈ a, x < n) (hbn : ∀ x ∈ b, x < n) :
    difference a b = intersect a (complement b n) := by
  rw [difference_eq_filter a b ha hb,
    intersect_eq_filter a (complement b n) ha (complement_sorted b n)]
  apply List.filter_congr
  intro x hx
  have hxn : x < n := han x hx
  have := mem_complement b n hb hbn x
  exact decide_eq_decide.mpr (by rw [this]; tauto)

theorem c10_witness :
    ([0, 2, 4] : List Nat).Sorted (· < ·) ∧ ([1, 2] : List Nat).Sorted (· < ·) ∧
      (∀ x ∈ ([0, 2, 4] : List Nat), x < 5) ∧ (∀ x ∈ ([1, 2] : List Nat), x < 5) ∧
      difference [0, 2, 4] [1, 2] = intersect [0, 2, 4] (complement [1, 2] 5) :=
  ⟨by decide, by decide, by decide, by decide,
    c10_difference_equiv [0, 2, 4] [1, 2] 5 (by decide) (by decide) (by decide) (by decide)⟩

/-! ### Query tokens and the RPN evaluator (`eval_postfix`) -/

/-- A query token: operator, parenthesis or term, as a character string. -/
abbrev Tok := List Char

def tNOT : Tok := ['N', 'O', 'T']

def tAND : Tok := ['A', 'N', 'D']

def tOR : Tok := ['O', 'R']

def lparTok : Tok := ['(']

def rparTok : Tok := [')']

/-- Embeds `OPS = {"AND", "OR", "NOT"}` of `search_engine.py` (used only through
membership tests, so a list models the Python set faithfully). -/
def OPS : List Tok := [tAND, tOR, tNOT]

/-- Models `dict.get(key, default=None)` over an association list, modelling the
Python `postings` dict. -/
def alookup {α : Type} : List (Tok × α) → Tok → Option α
  | [], _ => none
  | (k, v) :: rest, t => if k = t then some v else alookup rest t

/-- The loop of `eval_postfix`: process RPN tokens against a stack of
posting lists.  `b` is popped first, `a` second, exactly as in the Python
(`b = stack.pop(); a = stack.pop()`); an unknown term pushes
`postings.get(tok, [])`, i.e. the empty posting list. -/
def evalGo (postings : List (Tok × List Nat)) (nDocs : Nat) :
    List Tok → List (List Nat) → Except String (List Nat)
  | [], stack =>
    match stack with
    | [r] => Except.ok r
    | _ => Except.error "Consulta inválida"
  | tok :: ts, stack =>
    if tok = tNOT then
      match stack with
      | [] => Except.error "NOT sin operando"
      | a :: rest => evalGo postings nDocs ts (complement a nDocs :: rest)
    else if tok = tAND then
      match stack with
      | b :: a :: rest => evalGo postings nDocs ts (intersect a b :: rest)
      | _ => Except.error "AND sin operandos suficientes"
    else if tok = tOR then
      match stack with
      | b :: a :: rest => evalGo postings nDocs ts (union a b :: rest)
      | _ => Except.error "OR sin operandos suficientes"
    else evalGo postings nDocs ts ((alookup postings tok).getD [] :: stack)

/-- Embeds `eval_postfix(postfix, postings, n_docs)` of `search_engine.py`. -/
def evalRpn (toks : List Tok) (postings : List (Tok × List Nat))
    (nDocs : Nat) : Except String (List Nat) :=
  evalGo postings nDocs toks []

/-- Pure arity bookkeeping for an RPN token sequence started with `k`
stack entries: `NOT` needs one operand and keeps the count, `AND`/`OR`
need two and decrease it by one, a term increases it by one, and at the
end the count must be exactly `1`. -/
def arityOk : List Tok → Nat → Bool
  | [], k => k == 1
  | tok :: ts, k =>
    if tok = tNOT then decide (1 ≤ k) && arityOk ts k
    else if tok = tAND ∨ tok = tOR then decide (2 ≤ k) && arityOk ts (k - 1)
    else arityOk ts (k + 1)

theorem evalGo_error_iff (postings : List (Tok × List Nat)) (nDocs : Nat) :
    ∀ (p : List Tok) (stack : List (List Nat)),
      (∃ e, evalGo postings nDocs p stack = Except.error e) ↔
        arityOk p stack.length = false := by
  intro p
  induction p with
  | nil =>
    intro stack
    match stack with
    | [] => simp [evalGo, arityOk]
    | [r] => simp [evalGo, arityOk]
    | r1 :: r2 :: rest => simp [evalGo, arityOk]
  | cons tok ts ih =>
    intro stack
    by_cases hN : tok = tNOT
    · subst hN
      match stack with
      | [] => simp [evalGo, arityOk]
      | a :: rest =>
        have hk : decide (1 ≤ rest.length + 1) = true := by simp
        simp only [evalGo, if_pos rfl, arityOk, List.length_cons, hk,
          Bool.true_and]
        have := ih (complement a nDocs :: rest)
        simpa using this
    · have hN' : (tok = tNOT) = False := by simp [hN]
      by_cases hA : tok = tAND ∨ tok = tOR
      · have harity : ∀ k, arityOk (tok :: ts) k
            = (decide (2 ≤ k) && arityOk ts (k - 1)) := by
          intro k
          simp [arityOk, hN, hA]
        rcases hA with hA | hA
        · subst hA
          match stack with
          | [] => simp [evalGo, arityOk, hN', tAND, tNOT]
          | [x] => simp [evalGo, arityOk, hN', tAND, tNOT]
          | b :: a :: rest =>
            have hAN : ¬ (tAND = tNOT) := by decide
            have hk : decide (2 ≤ rest.length + 1 + 1) = true := by simp
            rw [harity]
            simp only [evalGo, hN', List.length_cons, hk, Bool.true_and,
              if_neg hAN, if_pos rfl]
            have := ih (intersect a b :: rest)
            simpa using this
        · subst hA
          match stack with
          | [] => simp [evalGo, arityOk, hN', tOR, tAND, tNOT]
          | [x] => simp [evalGo, arityOk, hN', tOR, tAND, tNOT]
          | b :: a :: rest =>
            have hON : ¬ (tOR = tNOT) := by decide
            have hOA : ¬ (tOR = tAND) := by decide
            have hk : decide (2 ≤ rest.length + 1 + 1) = true := by simp
            rw [harity]
            simp only [evalGo, List.length_cons, hk, Bool.true_and,
              if_neg hON, if_neg hOA, if_pos rfl]
            have := ih (union a b :: rest)
            simpa using this
      · push_neg at hA
        simp only [evalGo, if_neg hN, if_neg hA.1, if_neg hA.2, arityOk,
          if_neg hN, if_neg (by simp [hA.1, hA.2] : ¬(tok = tAND ∨ tok = tOR))]
        have := ih ((alookup postings tok).getD [] :: stack)
        simpa using this

/-- Claim C2: `eval_postfix` fails exactly when a `NOT` is reached with an
empty stack, an `AND`/`OR` is reached with fewer than two entries, or the
final stack does not hold exactly one list (the arity check `arityOk`);
the failure condition is independent of the index, a term token pushes
`postings.get(tok, [])` (so an absent term pushes the empty list), and a
final single-entry stack returns its entry. -/
theorem c2_eval_error_characterization (p : List Tok)
    (postings : List (Tok × List Nat)) (nDocs : Nat)
    (stack : List (List Nat)) (tok : Tok) (r : List Nat)
    (hterm : tok ∉ OPS) :
    ((∃ e, evalGo postings nDocs p stack = Except.error e) ↔
        arityOk p stack.length = false) ∧
      ((∃ e, evalRpn p postings nDocs = Except.error e) ↔
        arityOk p 0 = false) ∧
      evalGo postings nDocs (tok :: p) stack
        = evalGo postings nDocs p ((alookup postings tok).getD [] :: stack) ∧
      evalGo postings nDocs [] [r] = Except.ok r := by
  have hops : tok ≠ tAND ∧ tok ≠ tOR ∧ tok ≠ tNOT := by
    simpa [OPS] using hterm
  refine ⟨evalGo_error_iff postings nDocs p stack, ?_, ?_, rfl⟩
  · simpa using evalGo_error_iff postings nDocs p []
  · simp [evalGo, hops.1, hops.2.1, hops.2.2]

theorem c2_witness :
    (['t'] : Tok) ∉ OPS ∧
      (((∃ e, evalGo [] 0 [['q']] [] = Except.error e) ↔
          arityOk [['q']] 0 = false) ∧
        ((∃ e, evalRpn [['q']] [] 0 = Except.error e) ↔
          arityOk [['q']] 0 = false) ∧
        evalGo [] 0 [['t'], ['q']] []
          = evalGo [] 0 [['q']] ((alookup ([] : List (Tok × List Nat)) ['t']).getD [] :: []) ∧
        evalGo [] 0 [] [[5]] = Except.ok [5]) :=
  ⟨by decide,
    c2_eval_error_characterization [['q']] [] 0 [] ['t'] [5] (by decide)⟩

/-! ### C9: the sorted-and-bounded invariant -/

/-- A posting list is well-formed for a universe of `n` documents when it
is strictly ascending and every id is below `n`. -/
abbrev goodList (n : Nat) (l : List Nat) : Prop :=
  l.Sorted (· < ·) ∧ ∀ x ∈ l, x < n

theorem goodList_intersect {n : Nat} {a b : List Nat}
    (ha : goodList n a) (_hb : goodList n b) : goodList n (intersect a b) :=
  ⟨ha.1.sublist (intersect_sublist_left a b),
    fun x hx => ha.2 x ((intersect_sublist_left a b).mem hx)⟩

theorem goodList_union {n : Nat} {a b : List Nat}
    (ha : goodList n a) (hb : goodList n b) : goodList n (union a b) := by
  refine ⟨union_sorted a b ha.1 hb.1, fun x hx => ?_⟩
  rcases (mem_union a b x).mp hx with h | h
  · exact ha.2 x h
  · exact hb.2 x h

theorem goodList_complement (n : Nat) (a : List Nat) :
    goodList n (complement a n) :=
  ⟨complement_sorted a n, complement_lt a n⟩

theorem evalGo_good (postings : List (Tok × List Nat)) (nDocs : Nat)
    (hidx : ∀ t l, alookup postings t = some l → goodList nDocs l) :
    ∀ (p : List Tok) (stack : List (List Nat)),
      (∀ s ∈ stack, goodList nDocs s) →
      ∀ r, evalGo postings nDocs p stack = Except.ok r → goodList nDocs r := by
  intro p
  induction p with
  | nil =>
    intro stack hstack r hr
    match stack with
    | [] => simp [evalGo] at hr
    | [r'] =>
      have hrr : r' = r := by simpa [evalGo] using hr
      exact hrr ▸ hstack r' (by simp)
    | r1 :: r2 :: rest => simp [evalGo] at hr
  | cons tok ts ih =>
    intro stack hstack r hr
    by_cases hN : tok = tNOT
    · subst hN
      match stack with
      | [] => simp [evalGo] at hr
      | a :: rest =>
        simp only [evalGo, if_pos rfl] at hr
        refine ih (complement a nDocs :: rest) ?_ r hr
        intro s hs
        rcases List.mem_cons.mp hs with h | h
        · exact h ▸ goodList_complement nDocs a
        · exact hstack s (List.mem_cons_of_mem a h)
    · by_cases hA : tok = tAND
      · subst hA
        have hAN : ¬ (tAND = tNOT) := by decide
        match stack with
        | [] => simp [evalGo, hAN] at hr
        | [x] => simp [evalGo, hAN] at hr
        | b :: a :: rest =>
          simp only [evalGo, if_neg hAN, if_pos rfl] at hr
          refine ih (intersect a b :: rest) ?_ r hr
          intro s hs
          rcases List.mem_cons.mp hs with h | h
          · refine h ▸ goodList_intersect ?_ ?_
            · exact hstack a (by simp)
            · exact hstack b (by simp)
          · exact hstack s (by simp [h])
      · by_cases hO : tok = tOR
        · subst hO
          have hON : ¬ (tOR = tNOT) := by decide
          have hOA : ¬ (tOR = tAND) := by decide
          match stack with
          | [] => simp [evalGo, hON, hOA] at hr
          | [x] => simp [evalGo, hON, hOA] at hr
          | b :: a :: rest =>
            simp only [evalGo, if_neg hON, if_neg hOA, if_pos rfl] at hr
            refine ih (union a b :: rest) ?_ r hr
            intro s hs
            rcases List.mem_cons.mp hs with h | h
            · refine h ▸ goodList_union ?_ ?_
              · exact hstack a (by simp)
              · exact hstack b (by simp)
            · exact hstack s (by simp [h])
        · simp only [evalGo, if_neg hN, if_neg hA, if_neg hO] at hr
          refine ih ((alookup postings tok).getD [] :: stack) ?_ r hr
          intro s hs
          rcases List.mem_cons.mp hs with h | h
          · subst h
            match hl : alookup postings tok with
            | none => simp [hl]; exact ⟨List.sorted_nil, by simp⟩
            | some l => simpa [hl] using hidx tok l hl
          · exact hstack s h

/-- Claim C9: If every posting list in the index is strictly ascending with
all ids below `n_docs`, then so is every list the evaluator ever holds on
its stack — in particular any returned result — and `intersect`, `union`
and `complement` each preserve that invariant. -/
theorem c9_eval_invariant (postings : List (Tok × List Nat)) (nDocs : Nat)
    (p : List Tok) (stack : List (List Nat)) (r a b : List Nat)
    (hidx : ∀ t l, alookup postings t = some l → goodList nDocs l)
    (hstack : ∀ s ∈ stack, goodList nDocs s)
    (hres : evalGo postings nDocs p stack = Except.ok r)
    (hga : goodList nDocs a) (hgb : goodList nDocs b) :
    goodList nDocs r ∧ goodList nDocs (intersect a b) ∧
      goodList nDocs (union a b) ∧ goodList nDocs (complement b nDocs) :=
  ⟨evalGo_good postings nDocs hidx p stack hstack r hres,
    goodList_intersect hga hgb, goodList_union hga hgb,
    goodList_complement nDocs b⟩

theorem c9_witness :
    (∀ t l, alookup ([] : List (Tok × List Nat)) t = some l → goodList 3 l) ∧
      (∀ s ∈ ([] : List (List Nat)), goodList 3 s) ∧
      evalGo [] 3 [['a'], tNOT] [] = Except.ok [0, 1, 2] ∧
      goodList 3 [0] ∧ goodList 3 [1] ∧
      (goodList 3 [0, 1, 2] ∧ goodList 3 (intersect [0] [1]) ∧
        goodList 3 (union [0] [1]) ∧ goodList 3 (complement [1] 3)) :=
  ⟨fun t l h => by simp [alookup] at h,
    fun s hs => by simp at hs,
    rfl, by decide, by decide,
    c9_eval_invariant [] 3 [['a'], tNOT] [] [0, 1, 2] [0] [1]
      (fun t l h => by simp [alookup] at h)
      (fun s hs => by simp at hs)
      rfl (by decide) (by decide)⟩

/-! ### Text normalization (`clean_text`), tokenization and the query lexer -/

/-- Modelled from the spec: locale-independent lowercasing (step (e) of
the normalizer, Python `str.lower`), restricted to ASCII letters and the
accented letters of the tokenizer alphabet (Á É Í Ó Ú Ü Ñ, code points
193/201/205/211/218/220/209); other characters are unchanged. -/
def pyLower (c : Char) : Char :=
  if 65 ≤ c.toNat ∧ c.toNat ≤ 90 then Char.ofNat (c.toNat + 32)
  else if c.toNat = 193 then 'á'
  else if c.toNat = 201 then 'é'
  else if c.toNat = 205 then 'í'
  else if c.toNat = 211 then 'ó'
  else if c.toNat = 218 then 'ú'
  else if c.toNat = 220 then 'ü'
  else if c.toNat = 209 then 'ñ'
  else c

/-- Modelled from the spec: upper-casing for the reserved-word test of the
query lexer (Python `str.upper`), restricted to ASCII letters and the
accented letters of the tokenizer alphabet (á é í ó ú ü ñ, code points
225/233/237/243/250/252/241); other characters are unchanged. -/
def pyUpper (c : Char) : Char :=
  if 97 ≤ c.toNat ∧ c.toNat ≤ 122 then Char.ofNat (c.toNat - 32)
  else if c.toNat = 225 then 'Á'
  else if c.toNat = 233 then 'É'
  else if c.toNat = 237 then 'Í'
  else if c.toNat = 243 then 'Ó'
  else if c.toNat = 250 then 'Ú'
  else if c.toNat = 252 then 'Ü'
  else if c.toNat = 241 then 'Ñ'
  else c

/-- Modelled from the spec: the entity table for step (a) of the
normalizer (decode/unescape markup entities, Python `html.unescape`),
restricted to the four predefined XML entities; each entry is the name
after `&` together with the decoded character. -/
def entityTable : List (List Char × Char) :=
  [(['a', 'm', 'p', ';'], '&'), (['l', 't', ';'], '<'),
   (['g', 't', ';'], '>'), (['q', 'u', 'o', 't', ';'], '"')]

/-- Try to decode an entity name right after an `&`, returning the decoded
character and the remaining input. -/
def matchEntity : List (List Char × Char) → List Char → Option (Char × List Char)
  | [], _ => none
  | (name, c) :: rest, s =>
    if name.isPrefixOf s then some (c, s.drop name.length)
    else matchEntity rest s

/-- Fuelled single left-to-right unescaping pass; each step consumes at
least one character, so fuel `s.length` always suffices. -/
def unescapeF : Nat → List Char → List Char
  | 0, s => s
  | _ + 1, [] => []
  | fuel + 1, c :: cs =>
    if c = '&' then
      match matchEntity entityTable cs with
      | some (ch, rest) => ch :: unescapeF fuel rest
      | none => '&' :: unescapeF fuel cs
    else c :: unescapeF fuel cs

/-- Step (a) of `clean_text`: `html.unescape(s)` (modelled from the spec
with the restricted `entityTable`). -/
def htmlUnescape (s : List Char) : List Char := unescapeF s.length s

def tagEndGo : List Char → Option (List Char)
  | [] => none
  | c :: cs => if c = '>' then some cs else tagEndGo cs

/-- Scan for the end of a `<...>` tag: at least one non-`>` character and
then a `>`; returns the remainder after the tag, or `none` when the regex
`<[^>]+>` cannot match at this `<`. -/
def tagEnd : List Char → Option (List Char)
  | [] => none
  | c :: cs => if c = '>' then none else tagEndGo cs

/-- Fuelled tag-stripping pass; each step consumes at least one character,
so fuel `s.length` always suffices. -/
def stripTagsF : Nat → List Char → List Char
  | 0, s => s
  | _ + 1, [] => []
  | fuel + 1, c :: cs =>
    if c = '<' then
      match tagEnd cs with
      | some rest => ' ' :: stripTagsF fuel rest
      | none => c :: stripTagsF fuel cs
    else c :: stripTagsF fuel cs

/-- Step (b) of `clean_text`: `TAG_RE.sub(" ", s)` — replace each leftmost
non-overlapping match of `<[^>]+>` by a single space. -/
def stripTags (s : List Char) : List Char := stripTagsF s.length s

/-- Modelled from the spec: step (c), Unicode NFKC normalization.  It is
modelled as the identity; every concrete input used in this development
consists of NFKC-invariant characters (ASCII and precomposed Latin-1
letters), on which real NFKC is the identity. -/
def nfkc (s : List Char) : List Char := s

/-- Modelled from the spec: step (d) — a character of Unicode general
category C (modelled by the control ranges U+0000–U+001F and
U+007F–U+009F) that is not itself tab (9), newline (10) or space (32) is
replaced by a space. -/
def ctrlToSpace (c : Char) : Char :=
  if (c.toNat < 32 ∨ (127 ≤ c.toNat ∧ c.toNat ≤ 159)) ∧
      ¬(c.toNat = 10 ∨ c.toNat = 9 ∨ c.toNat = 32) then ' ' else c

/-- Embeds `clean_text(s)` of `search_engine.py`: unescape entities, strip tags,
NFKC-normalize, replace control characters by spaces, lowercase — in that
order. -/
def cleanText (s : List Char) : List Char :=
  ((nfkc (stripTags (htmlUnescape s))).map ctrlToSpace).map pyLower

/-- The character class of `WORD_RE` (`[a-záéíóúüñ0-9]`), on lowercased
input. -/
def wordChar (c : Char) : Bool :=
  (97 ≤ c.toNat && c.toNat ≤ 122) || (48 ≤ c.toNat && c.toNat ≤ 57) ||
    c.toNat == 225 || c.toNat == 233 || c.toNat == 237 || c.toNat == 243 ||
    c.toNat == 250 || c.toNat == 252 || c.toNat == 241

/-- Maximal-run splitting: `(rawChunks p s).1` is the run of `p`-chars at
the head of `s`, `(rawChunks p s).2` the (possibly empty) later runs, in
order, including empties between adjacent separators. -/
def rawChunks (p : Char → Bool) : List Char → List Char × List (List Char)
  | [] => ([], [])
  | c :: cs =>
    if p c then (c :: (rawChunks p cs).1, (rawChunks p cs).2)
    else ([], (rawChunks p cs).1 :: (rawChunks p cs).2)

/-- All maximal nonempty runs of `p`-characters of `s`, in order. -/
def chunks (p : Char → Bool) (s : List Char) : List (List Char) :=
  ((rawChunks p s).1 :: (rawChunks p s).2).filter (fun w => !w.isEmpty)

/-- Embeds `tokenize(s)` of `search_engine.py`: all maximal runs of
`[a-záéíóúüñ0-9]` in `s.lower()`; everything else separates. -/
def tokenize (s : List Char) : List (List Char) :=
  chunks wordChar (s.map pyLower)

/-- Modelled from the spec: the whitespace class of Python `str.split()`
(space, tab, newline, carriage return, vertical tab, form feed). -/
def isWs (c : Char) : Bool :=
  c.toNat == 32 || c.toNat == 9 || c.toNat == 10 || c.toNat == 13 ||
    c.toNat == 11 || c.toNat == 12

/-- Python `q.split()`: the maximal nonempty runs of non-whitespace. -/
def splitWs (s : List Char) : List (List Char) :=
  chunks (fun c => !isWs c) s

/-- The two `str.replace` calls of `query_lex`: pad each parenthesis with
spaces (character-wise, since the replacement strings introduce no
parenthesis of the other kind). -/
def replaceParens (s : List Char) : List Char :=
  s.flatMap fun c =>
    if c = '(' then [' ', '(', ' ']
    else if c = ')' then [' ', ')', ' ']
    else [c]

/-- One word of `query_lex`: a word whose uppercase form is a reserved
word, or a literal parenthesis, becomes a single operator token (the
uppercased word); any other word is normalized and tokenized into zero or
more term tokens. -/
def lexWord (tok : List Char) : List (List Char) :=
  let up := tok.map pyUpper
  if up ∈ OPS ∨ tok = lparTok ∨ tok = rparTok then [up]
  else tokenize (cleanText tok)

/-- Embeds `query_lex(q)` of `search_engine.py`. -/
def queryLex (q : List Char) : List (List Char) :=
  (splitWs (replaceParens q)).flatMap lexWord

/-- Claim C8, counterexample: `clean_text` is not idempotent: HTML
unescaping acts again on the output, so `"&amp;amp;"` normalizes to
`"&amp;"`, which normalizes further to `"&"`. -/
theorem c8_counterexample :
    cleanText (cleanText ['&', 'a', 'm', 'p', ';', 'a', 'm', 'p', ';'])
      ≠ cleanText ['&', 'a', 'm', 'p', ';', 'a', 'm', 'p', ';'] := by decide

/-- Claim C5, counterexample: `query_lex` can emit the term token `"and"`:
the raw word `"and."` upper-cases to `"AND."`, which is not a reserved
word, and its normalized tokenization is the single term `"and"` — which
spells a reserved word (its uppercase form is in `OPS`) yet is not an
operator token. -/
theorem c5_counterexample :
    queryLex ['a', 'n', 'd', '.'] = [['a', 'n', 'd']] ∧
      ['a', 'n', 'd'] ∉ OPS ∧ (['a', 'n', 'd'].map pyUpper) ∈ OPS := by decide

/-! ### C8 (amended) and C5 (amended) -/

/-- A "plain" character — lowercase ASCII letter, digit or space: text
made of these is untouched by every stage of `clean_text`. -/
def plainChar (c : Char) : Bool :=
  (97 ≤ c.toNat && c.toNat ≤ 122) || (48 ≤ c.toNat && c.toNat ≤ 57) ||
    c.toNat == 32

theorem plainChar_val {c : Char} (hc : plainChar c = true) :
    (97 ≤ c.toNat ∧ c.toNat ≤ 122) ∨ (48 ≤ c.toNat ∧ c.toNat ≤ 57) ∨
      c.toNat = 32 := by
  simp only [plainChar, Bool.or_eq_true, Bool.and_eq_true, decide_eq_true_eq,
    beq_iff_eq] at hc
  tauto

theorem map_id_of {f : Char → Char} :
    ∀ s : List Char, (∀ c ∈ s, f c = c) → s.map f = s
  | [], _ => rfl
  | c :: cs, h => by
    rw [List.map_cons, h c (by simp),
      map_id_of cs (fun d hd => h d (by simp [hd]))]

theorem unescapeF_no_amp :
    ∀ (fuel : Nat) (s : List Char), (∀ c ∈ s, c ≠ '&') →
      unescapeF fuel s = s
  | 0, _, _ => rfl
  | _ + 1, [], _ => rfl
  | fuel + 1, c :: cs, h => by
    simp only [unescapeF]
    rw [if_neg (h c (by simp)),
      unescapeF_no_amp fuel cs (fun d hd => h d (by simp [hd]))]

theorem stripTagsF_no_lt :
    ∀ (fuel : Nat) (s : List Char), (∀ c ∈ s, c ≠ '<') →
      stripTagsF fuel s = s
  | 0, _, _ => rfl
  | _ + 1, [], _ => rfl
  | fuel + 1, c :: cs, h => by
    simp only [stripTagsF]
    rw [if_neg (h c (by simp)),
      stripTagsF_no_lt fuel cs (fun d hd => h d (by simp [hd]))]

/-- On plain text `clean_text` is the identity. -/
theorem cleanText_plain (s : List Char)
    (h : ∀ c ∈ s, plainChar c = true) : cleanText s = s := by
  have hamp : ∀ c ∈ s, c ≠ '&' := by
    intro c hcs he
    have hv := plainChar_val (h c hcs)
    rw [he] at hv
    revert hv
    decide
  have hlt : ∀ c ∈ s, c ≠ '<' := by
    intro c hcs he
    have hv := plainChar_val (h c hcs)
    rw [he] at hv
    revert hv
    decide
  unfold cleanText
  rw [show htmlUnescape s = s from unescapeF_no_amp s.length s hamp]
  rw [show stripTags s = s from stripTagsF_no_lt s.length s hlt]
  simp only [nfkc]
  rw [map_id_of s ?ctrl, map_id_of s ?low]
  case ctrl =>
    intro c hcs
    have hv := plainChar_val (h c hcs)
    unfold ctrlToSpace
    rw [if_neg (by omega)]
  case low =>
    intro c hcs
    have hv := plainChar_val (h c hcs)
    unfold pyLower
    split_ifs <;> first | rfl | omega

/-- Claim C8, amended: `clean_text` is not idempotent in general (see the
counterexample `"&amp;amp;"`, unescaped again on the second pass); it is
a no-op — hence idempotent — on text made of lowercase ASCII letters,
digits and spaces. -/
theorem c8_clean_idempotent_amended (s : List Char)
    (h : ∀ c ∈ s, plainChar c = true) :
    cleanText s = s ∧ cleanText (cleanText s) = cleanText s := by
  have hid := cleanText_plain s h
  exact ⟨hid, by rw [hid, hid]⟩

theorem c8_witness :
    (∀ c ∈ (['h', 'o', 'l', 'a', ' ', '2'] : List Char), plainChar c = true) ∧
      cleanText ['h', 'o', 'l', 'a', ' ', '2'] = ['h', 'o', 'l', 'a', ' ', '2'] ∧
      cleanText (cleanText ['h', 'o', 'l', 'a', ' ', '2'])
        = cleanText ['h', 'o', 'l', 'a', ' ', '2'] :=
  ⟨by decide,
    (c8_clean_idempotent_amended ['h', 'o', 'l', 'a', ' ', '2'] (by decide)).1,
    (c8_clean_idempotent_amended ['h', 'o', 'l', 'a', ' ', '2'] (by decide)).2⟩

theorem rawChunks_chars (p : Char → Bool) (s : List Char) :
    (∀ c ∈ (rawChunks p s).1, p c = true) ∧
      (∀ t ∈ (rawChunks p s).2, ∀ c ∈ t, p c = true) := by
  induction s with
  | nil => simp [rawChunks]
  | cons c cs ih =>
    simp only [rawChunks]
    by_cases hp : p c = true
    · rw [if_pos hp]
      refine ⟨?_, ih.2⟩
      intro d hd
      rcases List.mem_cons.mp hd with h | h
      · exact h ▸ hp
      · exact ih.1 d h
    · rw [if_neg hp]
      refine ⟨by simp, ?_⟩
      intro t ht
      rcases List.mem_cons.mp ht with h | h
      · exact h ▸ ih.1
      · exact ih.2 t h

theorem chunks_chars (p : Char → Bool) (s t : List Char)
    (ht : t ∈ chunks p s) : ∀ c ∈ t, p c = true := by
  have h := rawChunks_chars p s
  unfold chunks at ht
  have hmem := List.mem_filter.mp ht
  rcases List.mem_cons.mp hmem.1 with h1 | h1
  · exact h1 ▸ h.1
  · exact h.2 t h1

/-- Claim C5, amended: Every raw word whose uppercase form is exactly
`AND`, `OR` or `NOT` is emitted as an (uppercase) operator token, and the
term tokens emitted for any non-reserved word consist purely of word
characters — so they are never the operator tokens themselves.  However
(see the counterexample) a non-reserved raw word such as `"and."` can
still produce a lowercase term token spelling a reserved word. -/
theorem c5_lexer_reserved_amended (tok t : List Char) :
    (tok.map pyUpper ∈ OPS → lexWord tok = [tok.map pyUpper]) ∧
      (¬(tok.map pyUpper ∈ OPS ∨ tok = lparTok ∨ tok = rparTok) →
        t ∈ lexWord tok → t ∉ OPS ∧ t ≠ lparTok ∧ t ≠ rparTok) := by
  constructor
  · intro hin
    unfold lexWord
    rw [if_pos (Or.inl hin)]
  · intro hnot hmem
    unfold lexWord at hmem
    rw [if_neg hnot] at hmem
    have hchars : ∀ c ∈ t, wordChar c = true :=
      chunks_chars wordChar _ t hmem
    refine ⟨?_, ?_, ?_⟩
    · intro hOPS
      simp only [OPS, List.mem_cons, List.not_mem_nil, or_false] at hOPS
      rcases hOPS with h | h | h
      · subst h; exact absurd (hchars 'A' (by decide)) (by decide)
      · subst h; exact absurd (hchars 'O' (by decide)) (by decide)
      · subst h; exact absurd (hchars 'N' (by decide)) (by decide)
    · intro h
      subst h
      exact absurd (hchars '(' (by decide)) (by decide)
    · intro h
      subst h
      exact absurd (hchars ')' (by decide)) (by decide)

theorem c5_witness :
    lexWord ['a', 'n', 'd'] = [['A', 'N', 'D']] ∧
      (['a', 'n', 'd'] ∉ OPS ∧ ['a', 'n', 'd'] ≠ lparTok ∧
        ['a', 'n', 'd'] ≠ rparTok) :=
  ⟨(c5_lexer_reserved_amended ['a', 'n', 'd'] []).1 (by decide),
    (c5_lexer_reserved_amended ['a', 'n', 'd', '.'] ['a', 'n', 'd']).2
      (by decide) (by decide)⟩

/-! ### The shunting-yard converter (`infix_to_postfix`) and C1 -/

/-- Embeds `PREC = {"NOT": 3, "AND": 2, "OR": 1}` (total with default `0`; the
code only ever queries it on operators). -/
def PREC (t : Tok) : Nat :=
  if t = tNOT then 3 else if t = tAND then 2 else if t = tOR then 1 else 0

/-- The operator-branch while loop of `infix_to_postfix`: while the stack
top is an operator, pop it to the output when it is right-associative
(`RIGHT_ASSOC = {"NOT"}`) with strictly greater precedence, or
left-associative with greater-or-equal precedence; otherwise break. -/
def popOps (t : Tok) : List Tok → List Tok → List Tok × List Tok
  | [], out => (out, [])
  | s :: rest, out =>
    if s ∈ OPS then
      if (s = tNOT ∧ PREC t < PREC s) ∨ (¬s = tNOT ∧ PREC t ≤ PREC s) then
        popOps t rest (out ++ [s])
      else (out, s :: rest)
    else (out, s :: rest)

/-- The `)`-branch while loop of `infix_to_postfix`: pop operators to the
output until a `(` is found and discarded; `none` when the stack empties
first (unbalanced). -/
def popUntilLParen : List Tok → List Tok → Option (List Tok × List Tok)
  | [], _ => none
  | s :: rest, out =>
    if s = lparTok then some (out, rest)
    else popUntilLParen rest (out ++ [s])

/-- The final drain of `infix_to_postfix`: pop all remaining entries to
the output, failing when a parenthesis is left on the stack. -/
def drainStack : List Tok → List Tok → Except String (List Tok)
  | [], out => Except.ok out
  | s :: rest, out =>
    if s = lparTok ∨ s = rparTok then Except.error "Paréntesis desbalanceados"
    else drainStack rest (out ++ [s])

/-- The token loop of `infix_to_postfix` of `search_engine.py`; the stack
is kept head-first (`stack.head = stack[-1]`). -/
def shuntGo : List Tok → List Tok → List Tok → Except String (List Tok)
  | [], out, stack => drainStack stack out
  | tok :: ts, out, stack =>
    if tok = lparTok then shuntGo ts out (lparTok :: stack)
    else if tok = rparTok then
      match popUntilLParen stack out with
      | none => Except.error "Paréntesis desbalanceados"
      | some (out', stack') => shuntGo ts out' stack'
    else if tok ∈ OPS then
      shuntGo ts (popOps tok stack out).1 (tok :: (popOps tok stack out).2)
    else shuntGo ts (out ++ [tok]) stack

/-- Embeds `infix_to_postfix(tokens)` of `search_engine.py`. -/
def toRpn (tokens : List Tok) : Except String (List Tok) :=
  shuntGo tokens [] []

/-- The pop condition of the claimed shunting-yard description, as a
predicate on the stack entry `s` for an incoming operator `t`: `s` is an
operator and is either right-associative (`NOT`) with strictly greater
precedence, or left-associative with greater-or-equal precedence. -/
def specPopCond (t s : Tok) : Bool :=
  decide (s ∈ OPS) &&
    ((decide (s = tNOT) && decide (PREC t < PREC s)) ||
      (!decide (s = tNOT) && decide (PREC t ≤ PREC s)))

/-- Modelled from the spec: the shunting-yard transform exactly as the
claim words it — `(` pushed; `)` pops operators to the output until a
discarded `(`, failing when the stack empties; an operator pops the
maximal prefix of the stack satisfying `specPopCond` and is then pushed; a
term goes straight to the output; at the end all remaining entries are
popped, failing when any is a parenthesis. -/
def specShunt : List Tok → List Tok → List Tok → Except String (List Tok)
  | [], out, stack =>
    if stack.any (fun s => decide (s = lparTok) || decide (s = rparTok)) then
      Except.error "Paréntesis desbalanceados"
    else Except.ok (out ++ stack)
  | tok :: ts, out, stack =>
    if tok = lparTok then specShunt ts out (lparTok :: stack)
    else if tok = rparTok then
      match stack.dropWhile (fun s => !decide (s = lparTok)) with
      | [] => Except.error "Paréntesis desbalanceados"
      | _ :: rest =>
        specShunt ts (out ++ stack.takeWhile (fun s => !decide (s = lparTok))) rest
    else if tok ∈ OPS then
      specShunt ts (out ++ stack.takeWhile (specPopCond tok))
        (tok :: stack.dropWhile (specPopCond tok))
    else specShunt ts (out ++ [tok]) stack

theorem popOps_eq (t : Tok) :
    ∀ (stack out : List Tok),
      popOps t stack out
        = (out ++ stack.takeWhile (specPopCond t),
            stack.dropWhile (specPopCond t)) := by
  intro stack
  induction stack with
  | nil => intro out; simp [popOps]
  | cons s rest ih =>
    intro out
    by_cases h1 : s ∈ OPS
    · by_cases h2 : (s = tNOT ∧ PREC t < PREC s) ∨ (¬s = tNOT ∧ PREC t ≤ PREC s)
      · have hcond : specPopCond t s = true := by
          simp only [specPopCond, Bool.and_eq_true, Bool.or_eq_true,
            Bool.not_eq_true', decide_eq_true_eq, decide_eq_false_iff_not]
          exact ⟨h1, h2⟩
        simp only [popOps, if_pos h1, if_pos h2, List.takeWhile_cons,
          List.dropWhile_cons, hcond, if_pos rfl, ih]
        simp
      · have hcond : specPopCond t s = false := by
          rw [Bool.eq_false_iff]
          intro hc
          simp only [specPopCond, Bool.and_eq_true, Bool.or_eq_true,
            Bool.not_eq_true', decide_eq_true_eq,
            decide_eq_false_iff_not] at hc
          exact h2 hc.2
        simp [popOps, if_pos h1, if_neg h2, List.takeWhile_cons,
          List.dropWhile_cons, hcond]
    · have hcond : specPopCond t s = false := by
        rw [Bool.eq_false_iff]
        intro hc
        simp only [specPopCond, Bool.and_eq_true, decide_eq_true_eq] at hc
        exact h1 hc.1
      simp [popOps, if_neg h1, List.takeWhile_cons, List.dropWhile_cons, hcond]

theorem popUntilLParen_eq :
    ∀ (stack out : List Tok),
      popUntilLParen stack out
        = match stack.dropWhile (fun s => !decide (s = lparTok)) with
          | [] => none
          | _ :: rest =>
            some (out ++ stack.takeWhile (fun s => !decide (s = lparTok)), rest) := by
  intro stack
  induction stack with
  | nil => intro out; simp [popUntilLParen]
  | cons s rest ih =>
    intro out
    by_cases h : s = lparTok
    · subst h
      simp [popUntilLParen, List.takeWhile_cons, List.dropWhile_cons]
    · simp only [popUntilLParen, if_neg h, List.takeWhile_cons,
        List.dropWhile_cons, decide_eq_false h, Bool.not_false, if_pos rfl, ih]
      cases rest.dropWhile (fun s => !decide (s = lparTok)) with
      | nil => rfl
      | cons x xs => simp

theorem drainStack_eq :
    ∀ (stack out : List Tok),
      drainStack stack out
        = if stack.any (fun s => decide (s = lparTok) || decide (s = rparTok)) then
            Except.error "Paréntesis desbalanceados"
          else Except.ok (out ++ stack) := by
  intro stack
  induction stack with
  | nil => intro out; simp [drainStack]
  | cons s rest ih =>
    intro out
    by_cases h : s = lparTok ∨ s = rparTok
    · have : (decide (s = lparTok) || decide (s = rparTok)) = true := by
        rcases h with h | h <;> simp [h]
      simp [drainStack, if_pos h, List.any_cons, this]
    · have : (decide (s = lparTok) || decide (s = rparTok)) = false := by
        rcases not_or.mp h with ⟨h1, h2⟩
        simp [h1, h2]
      simp [drainStack, if_neg h, List.any_cons, this, ih]

theorem shuntGo_eq_specShunt :
    ∀ (ts out stack : List Tok), shuntGo ts out stack = specShunt ts out stack := by
  intro ts
  induction ts with
  | nil =>
    intro out stack
    simp only [shuntGo, specShunt, drainStack_eq]
  | cons tok ts ih =>
    intro out stack
    by_cases hl : tok = lparTok
    · subst hl
      have e1 : shuntGo (lparTok :: ts) out stack
          = shuntGo ts out (lparTok :: stack) := by simp [shuntGo]
      have e2 : specShunt (lparTok :: ts) out stack
          = specShunt ts out (lparTok :: stack) := by simp [specShunt]
      rw [e1, e2]
      exact ih out (lparTok :: stack)
    · by_cases hr : tok = rparTok
      · subst hr
        have e1 : shuntGo (rparTok :: ts) out stack
            = match popUntilLParen stack out with
              | none => Except.error "Paréntesis desbalanceados"
              | some (out', stack') => shuntGo ts out' stack' := by
          simp [shuntGo, hl]
        have e2 : specShunt (rparTok :: ts) out stack
            = match stack.dropWhile (fun s => !decide (s = lparTok)) with
              | [] => Except.error "Paréntesis desbalanceados"
              | _ :: rest =>
                specShunt ts
                  (out ++ stack.takeWhile (fun s => !decide (s = lparTok))) rest := by
          simp [specShunt, hl]
        rw [e1, e2, popUntilLParen_eq]
        cases stack.dropWhile (fun s => !decide (s = lparTok)) with
        | nil => rfl
        | cons x xs => exact ih _ _
      · by_cases ho : tok ∈ OPS
        · have e1 : shuntGo (tok :: ts) out stack
              = shuntGo ts (popOps tok stack out).1
                  (tok :: (popOps tok stack out).2) := by
            simp [shuntGo, hl, hr, ho]
          have e2 : specShunt (tok :: ts) out stack
              = specShunt ts (out ++ stack.takeWhile (specPopCond tok))
                  (tok :: stack.dropWhile (specPopCond tok)) := by
            simp [specShunt, hl, hr, ho]
          rw [e1, e2, popOps_eq]
          exact ih _ _
        · have e1 : shuntGo (tok :: ts) out stack
              = shuntGo ts (out ++ [tok]) stack := by
            simp [shuntGo, hl, hr, ho]
          have e2 : specShunt (tok :: ts) out stack
              = specShunt ts (out ++ [tok]) stack := by
            simp [specShunt, hl, hr, ho]
          rw [e1, e2]
          exact ih _ _

/-- Claim C1: `infix_to_postfix` implements exactly the claimed
shunting-yard transform (`specShunt`, transcribed from the claim) on every
token sequence. -/
theorem c1_shunting_yard_spec (tokens : List Tok) :
    toRpn tokens = specShunt tokens [] [] :=
  shuntGo_eq_specShunt tokens [] []

/-! ### C7: adjacent bare terms are lexed separately and rejected -/

theorem rawChunks_append_break (p : Char → Bool) (c : Char)
    (hc : p c = false) (x y : List Char) :
    rawChunks p (x ++ c :: y)
      = ((rawChunks p x).1,
          (rawChunks p x).2 ++ (rawChunks p y).1 :: (rawChunks p y).2) := by
  induction x with
  | nil =>
    simp only [List.nil_append, rawChunks]
    rw [if_neg (by simp [hc])]
  | cons a x ih =>
    simp only [List.cons_append, rawChunks, List.append_eq]
    by_cases hp : p a = true
    · rw [if_pos hp, if_pos hp, ih]
    · rw [if_neg hp, if_neg hp, ih]
      simp

theorem chunks_append_break (p : Char → Bool) (c : Char)
    (hc : p c = false) (x y : List Char) :
    chunks p (x ++ c :: y) = chunks p x ++ chunks p y := by
  unfold chunks
  rw [rawChunks_append_break p c hc x y]
  rw [show (rawChunks p x).1
        :: ((rawChunks p x).2 ++ (rawChunks p y).1 :: (rawChunks p y).2)
      = ((rawChunks p x).1 :: (rawChunks p x).2)
        ++ ((rawChunks p y).1 :: (rawChunks p y).2) from rfl]
  exact List.filter_append _ _

theorem replaceParens_append_space (x y : List Char) :
    replaceParens (x ++ ' ' :: y)
      = replaceParens x ++ ' ' :: replaceParens y := by
  unfold replaceParens
  rw [show x ++ ' ' :: y = x ++ [' '] ++ y by simp]
  rw [List.flatMap_append, List.flatMap_append]
  simp

/-- A single space between two pieces of a raw query splits the lexing:
`query_lex` of the concatenation is the concatenation of the lexings. -/
theorem queryLex_append_space (x y : List Char) :
    queryLex (x ++ ' ' :: y) = queryLex x ++ queryLex y := by
  unfold queryLex splitWs
  rw [replaceParens_append_space,
    chunks_append_break (fun c => !isWs c) ' ' (by decide),
    List.flatMap_append]

/-- Claim C7: Two bare term words separated only by whitespace lex to the
two term tokens; the converter succeeds and emits them unchanged (no
implicit operator is inserted), and the evaluator then rejects the
two-operand final stack as an invalid query. -/
theorem c7_adjacent_terms_rejected (w1 w2 t1 t2 : List Char)
    (postings : List (Tok × List Nat)) (nDocs : Nat)
    (h1 : queryLex w1 = [t1]) (h2 : queryLex w2 = [t2])
    (ht1 : t1 ∉ OPS ∧ t1 ≠ lparTok ∧ t1 ≠ rparTok)
    (ht2 : t2 ∉ OPS ∧ t2 ≠ lparTok ∧ t2 ≠ rparTok) :
    queryLex (w1 ++ ' ' :: w2) = [t1, t2] ∧
      toRpn [t1, t2] = Except.ok [t1, t2] ∧
      evalRpn [t1, t2] postings nDocs
        = Except.error "Consulta inválida" := by
  have hops1 : t1 ≠ tAND ∧ t1 ≠ tOR ∧ t1 ≠ tNOT := by
    have h := ht1.1
    simp only [OPS, List.mem_cons, List.not_mem_nil, or_false] at h
    tauto
  have hops2 : t2 ≠ tAND ∧ t2 ≠ tOR ∧ t2 ≠ tNOT := by
    have h := ht2.1
    simp only [OPS, List.mem_cons, List.not_mem_nil, or_false] at h
    tauto
  refine ⟨?_, ?_, ?_⟩
  · rw [queryLex_append_space, h1, h2]
    rfl
  · unfold toRpn
    simp [shuntGo, drainStack, ht1.1, ht1.2.1, ht1.2.2,
      ht2.1, ht2.2.1, ht2.2.2]
  · unfold evalRpn
    simp [evalGo, hops1.1, hops1.2.1, hops1.2.2,
      hops2.1, hops2.2.1, hops2.2.2]

theorem c7_witness :
    queryLex ['p', 'e', 'r', 'r', 'o'] = [['p', 'e', 'r', 'r', 'o']] ∧
      queryLex ['g', 'a', 't', 'o'] = [['g', 'a', 't', 'o']] ∧
      (queryLex (['p', 'e', 'r', 'r', 'o'] ++ ' ' :: ['g', 'a', 't', 'o'])
          = [['p', 'e', 'r', 'r', 'o'], ['g', 'a', 't', 'o']] ∧
        toRpn [['p', 'e', 'r', 'r', 'o'], ['g', 'a', 't', 'o']]
          = Except.ok [['p', 'e', 'r', 'r', 'o'], ['g', 'a', 't', 'o']] ∧
        evalRpn [['p', 'e', 'r', 'r', 'o'], ['g', 'a', 't', 'o']] [] 4
          = Except.error "Consulta inválida") :=
  ⟨by decide, by decide,
    c7_adjacent_terms_rejected ['p', 'e', 'r', 'r', 'o'] ['g', 'a', 't', 'o']
      ['p', 'e', 'r', 'r', 'o'] ['g', 'a', 't', 'o'] [] 4
      (by decide) (by decide) (by decide) (by decide)⟩

/-! ### The index builder (`build_inverted_index`) and C6 -/

/-- Embeds `postings[term].append(docid)` under `defaultdict(list)` semantics: an
existing key has the id appended to its list, a new key is inserted at the
end (dict insertion order). -/
def addPost : List (Tok × List Nat) → Tok → Nat → List (Tok × List Nat)
  | [], t, i => [(t, [i])]
  | (k, v) :: rest, t, i =>
    if k = t then (k, v ++ [i]) :: rest else (k, v) :: addPost rest t i

/-- Processing one document of `build_inverted_index`: append its id to
the posting list of every distinct term of its normalized, tokenized
text.  Python iterates `set(toks)`, whose order is unspecified; the
iteration order is abstracted by `pick`. -/
def addDoc (pick : List Tok → List Tok) (m : List (Tok × List Nat))
    (doc : Nat × List Char × List Char) : List (Tok × List Nat) :=
  (pick (tokenize (cleanText doc.2.2))).foldl
    (fun m t => addPost m t doc.1) m

/-- Embeds `build_inverted_index(docs)` of `search_engine.py`: fold the documents
through `addDoc`, then sort every posting list ascending. -/
def buildIndex (pick : List Tok → List Tok)
    (docs : List (Nat × List Char × List Char)) : List (Tok × List Nat) :=
  (docs.foldl (addDoc pick) []).map
    (fun kv => (kv.1, List.insertionSort (· ≤ ·) kv.2))

/-- A valid iteration order over a token list's underlying set: no
duplicates, and exactly the distinct elements. -/
def ValidPick (pick : List Tok → List Tok) : Prop :=
  ∀ ts, (pick ts).Nodup ∧ ∀ t, t ∈ pick ts ↔ t ∈ ts

/-- The ids of the documents containing `t`, in document order. -/
def postingIds (t : Tok) (docs : List (Nat × List Char × List Char)) :
    List Nat :=
  (docs.filter (fun d => decide (t ∈ tokenize (cleanText d.2.2)))).map
    (fun d => d.1)

theorem alookup_addPost (m : List (Tok × List Nat)) (t : Tok) (i : Nat)
    (u : Tok) :
    alookup (addPost m t i) u
      = if u = t then some ((alookup m t).getD [] ++ [i])
        else alookup m u := by
  induction m with
  | nil =>
    by_cases h : u = t
    · subst h
      simp [addPost, alookup]
    · have h' : ¬t = u := fun hh => h hh.symm
      simp [addPost, alookup, h, h']
  | cons kv rest ih =>
    obtain ⟨k, v⟩ := kv
    by_cases hk : k = t
    · subst hk
      by_cases hu : u = k
      · subst hu
        simp [addPost, alookup]
      · have h' : ¬k = u := fun hh => hu hh.symm
        simp [addPost, alookup, hu, h']
    · by_cases hu : k = u
      · subst hu
        simp [addPost, alookup, hk]
      · simp [addPost, alookup, hk, hu, ih]

theorem alookup_foldl_addPost :
    ∀ (l : List Tok), l.Nodup → ∀ (m : List (Tok × List Nat)) (i : Nat) (t : Tok),
      alookup (l.foldl (fun m u => addPost m u i) m) t
        = if t ∈ l then some ((alookup m t).getD [] ++ [i])
          else alookup m t := by
  intro l
  induction l with
  | nil => intro _ m i t; simp
  | cons u l ih =>
    intro hl m i t
    have hul : u ∉ l := (List.nodup_cons.mp hl).1
    have hl' : l.Nodup := (List.nodup_cons.mp hl).2
    rw [List.foldl_cons, ih hl' (addPost m u i) i t]
    by_cases hmem : t ∈ l
    · have htu : t ≠ u := fun h => hul (h ▸ hmem)
      rw [if_pos hmem, if_pos (List.mem_cons_of_mem u hmem)]
      rw [alookup_addPost m u i t, if_neg htu]
    · rw [if_neg hmem, alookup_addPost m u i t]
      by_cases htu : t = u
      · subst htu
        rw [if_pos rfl, if_pos (List.mem_cons_self t l)]
      · rw [if_neg htu, if_neg (by simp [htu, hmem])]

theorem alookup_addDoc (pick : List Tok → List Tok) (hpick : ValidPick pick)
    (m : List (Tok × List Nat)) (d : Nat × List Char × List Char) (t : Tok) :
    alookup (addDoc pick m d) t
      = if t ∈ tokenize (cleanText d.2.2) then
          some ((alookup m t).getD [] ++ [d.1])
        else alookup m t := by
  unfold addDoc
  rw [alookup_foldl_addPost _ (hpick _).1 m d.1 t]
  by_cases h : t ∈ tokenize (cleanText d.2.2)
  · rw [if_pos (((hpick _).2 t).mpr h), if_pos h]
  · rw [if_neg (fun hc => h (((hpick _).2 t).mp hc)), if_neg h]

theorem alookup_foldl_docs (pick : List Tok → List Tok)
    (hpick : ValidPick pick) :
    ∀ (docs : List (Nat × List Char × List Char))
      (m : List (Tok × List Nat)) (t : Tok),
      alookup (docs.foldl (addDoc pick) m) t
        = if alookup m t = none ∧ postingIds t docs = [] then none
          else some ((alookup m t).getD [] ++ postingIds t docs) := by
  intro docs
  induction docs with
  | nil =>
    intro m t
    match h : alookup m t with
    | none => simp [postingIds, h]
    | some v => simp [postingIds, h]
  | cons d docs ih =>
    intro m t
    rw [List.foldl_cons, ih (addDoc pick m d) t]
    by_cases hd : t ∈ tokenize (cleanText d.2.2)
    · have hpost : postingIds t (d :: docs) = d.1 :: postingIds t docs := by
        simp [postingIds, List.filter_cons, hd]
      rw [alookup_addDoc pick hpick m d t, if_pos hd, hpost]
      rw [if_neg (by simp)]
      match h : alookup m t with
      | none => simp [h]
      | some v => simp [h]
    · have hpost : postingIds t (d :: docs) = postingIds t docs := by
        simp [postingIds, List.filter_cons, hd]
      rw [alookup_addDoc pick hpick m d t, if_neg hd, hpost]

theorem alookup_map_sort (m : List (Tok × List Nat)) (t : Tok) :
    alookup (m.map (fun kv => (kv.1, List.insertionSort (· ≤ ·) kv.2))) t
      = (alookup m t).map (List.insertionSort (· ≤ ·)) := by
  induction m with
  | nil => simp [alookup]
  | cons kv rest ih =>
    obtain ⟨k, v⟩ := kv
    by_cases hk : k = t
    · simp [alookup, hk]
    · simp [alookup, hk, ih]

/-- The posting list that `build_inverted_index` associates to `t`. -/
theorem alookup_buildIndex (pick : List Tok → List Tok)
    (hpick : ValidPick pick) (docs : List (Nat × List Char × List Char))
    (t : Tok) :
    alookup (buildIndex pick docs) t
      = if postingIds t docs = [] then none
        else some (List.insertionSort (· ≤ ·) (postingIds t docs)) := by
  unfold buildIndex
  rw [alookup_map_sort, alookup_foldl_docs pick hpick docs [] t]
  have h0 : alookup ([] : List (Tok × List Nat)) t = none := rfl
  by_cases h : postingIds t docs = []
  · rw [if_pos ⟨h0, h⟩, if_pos h]
    rfl
  · rw [if_neg (by simp [h0, h]), if_neg h]
    simp [h0]

theorem postingIds_nodup (docs : List (Nat × List Char × List Char))
    (hids : (docs.map (fun d => d.1)).Nodup) (t : Tok) :
    (postingIds t docs).Nodup := by
  refine hids.sublist ?_
  exact (List.filter_sublist docs).map (fun d => d.1)

/-- Claim C6: `build_inverted_index` maps each term to the ascending,
duplicate-free list of exactly the ids of documents whose normalized,
tokenized text contains that term, and the resulting mapping does not
depend on the iteration order over each document's token set. -/
theorem c6_build_index_correct (docs : List (Nat × List Char × List Char))
    (pick pick' : List Tok → List Tok) (t : Tok) (i : Nat)
    (hp : ValidPick pick) (hp' : ValidPick pick')
    (hids : (docs.map (fun d => d.1)).Nodup) :
    alookup (buildIndex pick docs) t = alookup (buildIndex pick' docs) t ∧
      ((alookup (buildIndex pick docs) t).getD []).Sorted (· < ·) ∧
      (i ∈ (alookup (buildIndex pick docs) t).getD []
        ↔ ∃ d ∈ docs, d.1 = i ∧ t ∈ tokenize (cleanText d.2.2)) := by
  have hval : (alookup (buildIndex pick docs) t).getD []
      = List.insertionSort (· ≤ ·) (postingIds t docs) := by
    rw [alookup_buildIndex pick hp docs t]
    by_cases h : postingIds t docs = []
    · simp [h]
    · simp [h]
  refine ⟨?_, ?_, ?_⟩
  · rw [alookup_buildIndex pick hp docs t, alookup_buildIndex pick' hp' docs t]
  · rw [hval]
    have hle : (List.insertionSort (· ≤ ·) (postingIds t docs)).Sorted (· ≤ ·) :=
      List.sorted_insertionSort (· ≤ ·) (postingIds t docs)
    have hnd : (List.insertionSort (· ≤ ·) (postingIds t docs)).Nodup :=
      (List.perm_insertionSort (· ≤ ·) (postingIds t docs)).nodup_iff.mpr
        (postingIds_nodup docs hids t)
    exact (hle.and hnd).imp fun h => lt_of_le_of_ne h.1 h.2
  · rw [hval]
    rw [(List.perm_insertionSort (· ≤ ·) (postingIds t docs)).mem_iff]
    unfold postingIds
    constructor
    · intro h
      obtain ⟨d, hdf, hdi⟩ := List.mem_map.mp h
      have hdm := List.mem_filter.mp hdf
      exact ⟨d, hdm.1, hdi, of_decide_eq_true hdm.2⟩
    · rintro ⟨d, hdm, hdi, hdt⟩
      exact List.mem_map.mpr
        ⟨d, List.mem_filter.mpr ⟨hdm, decide_eq_true hdt⟩, hdi⟩

theorem c6_witness :
    ValidPick List.dedup ∧
      ((([(0, ([], ['p', 'e', 'r', 'r', 'o'])),
          (1, ([], ['g', 'a', 't', 'o']))] :
            List (Nat × List Char × List Char)).map (fun d => d.1)).Nodup ∧
      (alookup (buildIndex List.dedup
            [(0, ([], ['p', 'e', 'r', 'r', 'o'])), (1, ([], ['g', 'a', 't', 'o']))])
            ['g', 'a', 't', 'o']
          = alookup (buildIndex List.dedup
              [(0, ([], ['p', 'e', 'r', 'r', 'o'])), (1, ([], ['g', 'a', 't', 'o']))])
              ['g', 'a', 't', 'o'] ∧
        ((alookup (buildIndex List.dedup
            [(0, ([], ['p', 'e', 'r', 'r', 'o'])), (1, ([], ['g', 'a', 't', 'o']))])
            ['g', 'a', 't', 'o']).getD []).Sorted (· < ·) ∧
        (1 ∈ (alookup (buildIndex List.dedup
            [(0, ([], ['p', 'e', 'r', 'r', 'o'])), (1, ([], ['g', 'a', 't', 'o']))])
            ['g', 'a', 't', 'o']).getD []
          ↔ ∃ d ∈ ([(0, ([], ['p', 'e', 'r', 'r', 'o'])),
                (1, ([], ['g', 'a', 't', 'o']))] :
                List (Nat × List Char × List Char)),
              d.1 = 1 ∧ ['g', 'a', 't', 'o'] ∈ tokenize (cleanText d.2.2)))) :=
  have hvp : ValidPick List.dedup :=
    fun ts => ⟨List.nodup_dedup ts, fun t => List.mem_dedup⟩
  ⟨hvp, by decide,
    c6_build_index_correct
      [(0, ([], ['p', 'e', 'r', 'r', 'o'])), (1, ([], ['g', 'a', 't', 'o']))]
      List.dedup List.dedup ['g', 'a', 't', 'o'] 1 hvp hvp (by decide)⟩

end SearchEngine
